import Mathlib

/-!
Verification of the CSV ↔ Markdown table converter.

The development shallowly embeds the two conversion pipelines of the
repository:

* `csv_to_markdown.py` — `generate_markdown_table` renders a list of CSV
  rows as a Markdown pipe table, `csv_to_markdown` drives the conversion,
  and `update_readme_preview` splices the rendered table into the
  `## Preview` section of a README document.
* `markdown_to_csv.py` — `parse_markdown_table` parses a Markdown pipe
  table back into rows, and `markdown_to_csv` derives the output path.

Cells are modelled as `List Char` (Python strings); tables as lists of
rows.  File I/O is out of scope: the embeddings take the decoded text the
Python functions iterate over and return the values those functions
compute (plus, for the CLI driver, the observable exit/write outcome).
-/

namespace HokData

/-- ASCII whitespace as recognised by Python's `str.strip` and the `\s`
regex class (space, tab, newline, carriage return, vertical tab, form
feed). -/
def isPySpace (c : Char) : Bool :=
  c = ' ' || c = '\t' || c = '\n' || c = '\r' || c = '\x0b' || c = '\x0c'

/-- Python `str.strip()` on a list of characters: drop leading and
trailing whitespace. -/
def pyStrip (l : List Char) : List Char :=
  ((l.dropWhile isPySpace).reverse.dropWhile isPySpace).reverse

/-- Python `cell.replace('|', '\\|')` from `generate_markdown_table`
(line 53 of `csv_to_markdown.py`): every pipe character gets a backslash
in front of it. -/
def escapeCellC : List Char → List Char
  | [] => []
  | c :: rest => if c = '|' then '\\' :: '|' :: escapeCellC rest else c :: escapeCellC rest

/-- Python `' | '.join(cells)`: the interior of a rendered table row. -/
def joinCells : List (List Char) → List Char
  | [] => []
  | [c] => c
  | c :: cs => c ++ ' ' :: '|' :: ' ' :: joinCells cs

/-- Python `'| ' + ' | '.join(cells) + ' |'`: one rendered table line. -/
def renderRowC (cells : List (List Char)) : List Char :=
  '|' :: ' ' :: (joinCells cells ++ [' ', '|'])

/-- Python `'\n'.join(lines)`. -/
def joinLines : List (List Char) → List Char
  | [] => []
  | [l] => l
  | l :: ls => l ++ '\n' :: joinLines ls

/-- The row normalisation of `generate_markdown_table` (lines 46–51 of
`csv_to_markdown.py`): pad a short row on the right with empty cells
(`while len(row) < len(header): row.append('')`), then truncate to the
header's column count (`row = row[:len(header)]`). -/
def normalizeLen (n : Nat) (r : List (List Char)) : List (List Char) :=
  (r ++ List.replicate (n - r.length) []).take n

/-- The separator cell `---` of the rendered separator line. -/
def sepCellC : List Char := ['-', '-', '-']

/-- The Markdown rendering loop of `generate_markdown_table` for a
non-empty list of CSV rows: a header line (cells stripped, not escaped),
a separator line with `---` once per header column, then one line per
data row (normalised to the header length, each cell stripped and
pipe-escaped); lines joined with a single newline. -/
def renderTableC (h : List (List Char)) (t : List (List (List Char))) : List Char :=
  joinLines
    (renderRowC (h.map pyStrip) ::
      renderRowC (List.replicate h.length sepCellC) ::
        t.map (fun r =>
          renderRowC ((normalizeLen h.length r).map (fun c => escapeCellC (pyStrip c)))))

/-- `generate_markdown_table` of `csv_to_markdown.py` on the list of rows
the CSV reader produced: `None` (an error, here `Except.error` with the
printed message) when the CSV file held no rows, otherwise the rendered
Markdown table string. -/
def generate_markdown_table (rows : List (List String)) : Except String String :=
  match rows with
  | [] => .error "Error: CSV file is empty"
  | h :: t =>
    .ok (String.mk (renderTableC (h.map String.data) (t.map (fun r => r.map String.data))))

/-- Observable outcome of one run of the `csv_to_markdown` driver: the
process exit code, the file written (path and content), and the error
message printed on failure. -/
structure ConvResult where
  exitCode : Nat
  written : Option (String × String)
  errMsg : Option String
deriving DecidableEq, Repr

/-- `csv_to_markdown` of `csv_to_markdown.py`: generate the table; on
failure exit with status 1 before any output file is opened; on success
write the content to the destination (or print it when no destination is
given). -/
def csv_to_markdown (rows : List (List String)) (outPath : Option String) : ConvResult :=
  match generate_markdown_table rows with
  | .error e => ⟨1, none, some e⟩
  | .ok content =>
    match outPath with
    | some p => ⟨0, some (p, content), none⟩
    | none => ⟨0, none, none⟩

/-- Split a text into lines at `'\n'`, the line decomposition
`f.readlines()` performs (the trailing newline kept by `readlines` is
immaterial because every line is stripped before use). -/
def splitLinesC : List Char → List (List Char)
  | [] => [[]]
  | c :: rest =>
    if c = '\n' then [] :: splitLinesC rest
    else
      match splitLinesC rest with
      | [] => [[c]]
      | l :: ls => (c :: l) :: ls

/-- The character class `[\s\-\|:]` of the separator-line regex in
`parse_markdown_table` (line 42 of `markdown_to_csv.py`). -/
def inSepClass (c : Char) : Bool :=
  isPySpace c || c = '-' || c = '|' || c = ':'

/-- `re.match(r'^\|[\s\-\|:]+$', line)`: the line starts with `|` and the
(non-empty) remainder consists only of whitespace, dashes, pipes and
colons. -/
def isSepLineC : List Char → Bool
  | '|' :: rest => !rest.isEmpty && rest.all inSepClass
  | _ => false

/-- The cell-splitting scan of `parse_markdown_table` (lines 51–69 of
`markdown_to_csv.py`): a backslash immediately followed by `|` is decoded
to a literal pipe inside the current cell, a bare `|` closes the current
cell, every produced cell is stripped, and the final buffer is pushed at
the end of the interior. -/
def splitCells : List Char → List Char → List (List Char)
  | [], cur => [pyStrip cur]
  | [c], cur => if c = '|' then [pyStrip cur, pyStrip []] else [pyStrip (cur ++ [c])]
  | c1 :: c2 :: rest, cur =>
    if c1 = '\\' ∧ c2 = '|' then splitCells rest (cur ++ ['|'])
    else if c1 = '|' then pyStrip cur :: splitCells (c2 :: rest) []
    else splitCells (c2 :: rest) (cur ++ [c1])

/-- The line loop of `parse_markdown_table`: strip the line, skip blank
lines and separator lines, split pipe-delimited lines into cells, and
keep the row only when some cell is non-empty. -/
def parseRowsC : List (List Char) → List (List (List Char))
  | [] => []
  | l :: ls =>
    let line := pyStrip l
    if line.isEmpty then parseRowsC ls
    else if isSepLineC line then parseRowsC ls
    else if line.head? = some '|' ∧ line.getLast? = some '|' then
      let cells := splitCells ((line.drop 1).dropLast) []
      if cells.any (fun c => !c.isEmpty) then cells :: parseRowsC ls else parseRowsC ls
    else parseRowsC ls

/-- `parse_markdown_table` of `markdown_to_csv.py` on the decoded file
text: an empty file is an error, a file in which no line survives the
row filter is an error, otherwise the list of parsed rows. -/
def parse_markdown_table (text : String) : Except String (List (List String)) :=
  if text.data.isEmpty then .error "Error: Markdown file is empty"
  else
    match parseRowsC (splitLinesC text.data) with
    | [] => .error "Error: No valid table data found"
    | rows => .ok (rows.map (fun r => r.map String.mk))

/-- Python `path.replace('.md', '.csv')` from `markdown_to_csv` (line 104
of `markdown_to_csv.py`): every (left-to-right, non-overlapping)
occurrence of `.md` is replaced by `.csv`. -/
def replaceMdCsv : List Char → List Char
  | [] => []
  | [c] => [c]
  | [c1, c2] => [c1, c2]
  | c1 :: c2 :: c3 :: rest =>
    if c1 = '.' ∧ c2 = 'm' ∧ c3 = 'd'
    then '.' :: 'c' :: 's' :: 'v' :: replaceMdCsv rest
    else c1 :: replaceMdCsv (c2 :: c3 :: rest)

/-- Whether the substring `.md` occurs anywhere in the path. -/
def hasMdSub : List Char → Bool
  | c1 :: c2 :: c3 :: rest =>
    if c1 = '.' ∧ c2 = 'm' ∧ c3 = 'd' then true else hasMdSub (c2 :: c3 :: rest)
  | _ => false

/-- Output-path derivation of `markdown_to_csv` (lines 103–107) when no
destination is given: replace `.md` with `.csv` everywhere; if the result
does not end in `.csv`, append `.csv` to the original input path. -/
def derive_output_path (p : List Char) : List Char :=
  let cand := replaceMdCsv p
  if (".csv".data).isSuffixOf cand then cand else p ++ ".csv".data

/-- Greedy `\s*\n` after the heading: consume a whitespace run up to and
including its last newline; fail if the run contains no newline. -/
def wsConsume : List Char → Option (List Char × List Char)
  | [] => none
  | '\n' :: rest =>
    match wsConsume rest with
    | some (a, b) => some ('\n' :: a, b)
    | none => some (['\n'], rest)
  | c :: rest =>
    if isPySpace c then
      match wsConsume rest with
      | some (a, b) => some (c :: a, b)
      | none => none
    else none

/-- Lazy `(.*?)(?=\n## |\Z)` with `re.DOTALL`: scan to the first position
where `\n## ` follows (left unconsumed) or to the end of the text. -/
def scanUntilBoundary : List Char → List Char × List Char
  | [] => ([], [])
  | c :: rest =>
    if List.isPrefixOf ('\n' :: '#' :: '#' :: [' ']) (c :: rest) then ([], c :: rest)
    else
      match scanUntilBoundary rest with
      | (g, r) => (c :: g, r)

/-- Attempt of the primary pattern `(## Preview\s*\n)(.*?)(?=\n## |\Z)`
at the current position: on success, group 1 and the unconsumed remainder
after the match. -/
def matchPreviewAt (s : List Char) : Option (List Char × List Char) :=
  if List.isPrefixOf ("## Preview".data) s then
    match wsConsume (s.drop 10) with
    | none => none
    | some (ws, r1) => some ("## Preview".data ++ ws, (scanUntilBoundary r1).snd)
  else none

/-- `re.sub` with the primary pattern, replacement `\1\n` + table + `\n`
(the table content taken literally): scan left to right, substitute every
match, resume after the matched region.  The fuel argument bounds the
scan; `subAll` supplies the text's length, which always suffices because
every step consumes at least one character. -/
def subAllF (t : List Char) : Nat → List Char → List Char
  | _, [] => []
  | 0, s => s
  | fuel + 1, c :: rest =>
    match matchPreviewAt (c :: rest) with
    | some (g1, r2) => g1 ++ '\n' :: (t ++ '\n' :: subAllF t fuel r2)
    | none => c :: subAllF t fuel rest

/-- All substitutions of the primary `## Preview` pattern in a document. -/
def subAll (s t : List Char) : List Char := subAllF t s.length s

/-- The fallback `re.sub` with the lenient pattern
`(## Preview\s*\n)(.*)`: at the first match, `(.*)` (with `re.DOTALL`)
consumes everything to the end of the document, so the replacement ends
the result. -/
def lenientSub (t : List Char) : List Char → List Char
  | [] => []
  | c :: rest =>
    match matchPreviewAt (c :: rest) with
    | some (g1, _) => g1 ++ '\n' :: (t ++ ['\n'])
    | none => c :: lenientSub t rest

/-- Python `'## Preview' in readme_content`. -/
def containsPreview : List Char → Bool
  | [] => false
  | c :: rest => List.isPrefixOf ("## Preview".data) (c :: rest) || containsPreview rest

/-- Python `str.rstrip()`. -/
def rstripC (l : List Char) : List Char := (l.reverse.dropWhile isPySpace).reverse

/-- `re.sub(r'\n{3,}', '\n\n', s)`: collapse every run of three or more
newlines to exactly two.  The counter tracks how many consecutive
newlines were just emitted (capped at two). -/
def collapseNlAux : List Char → Nat → List Char
  | [], _ => []
  | '\n' :: rest, k =>
    if k ≥ 2 then collapseNlAux rest k else '\n' :: collapseNlAux rest (k + 1)
  | c :: rest, _ => c :: collapseNlAux rest 0

/-- Newline collapsing over a whole document. -/
def collapseNl (s : List Char) : List Char := collapseNlAux s 0

/-- `update_readme_preview` of `csv_to_markdown.py` (lines 96–121) as a
text transformer: substitute the primary pattern everywhere; if the text
is unchanged, either append a fresh `## Preview` section (heading absent)
or retry with the lenient pattern (heading present); finally collapse
runs of three or more newlines to two. -/
def update_readme_preview (doc t : List Char) : List Char :=
  let s1 := subAll doc t
  let s2 :=
    if s1 = doc then
      if containsPreview doc then lenientSub t doc
      else rstripC doc ++ "\n\n## Preview\n\n".data ++ t ++ ['\n']
    else s1
  collapseNl s2

/-- A cell is clean when it contains no pipe, newline or carriage return
and neither starts nor ends with whitespace (i.e. it is already
stripped).  These are the side conditions under which rendering and
parsing invert each other. -/
def okEnd : Option Char → Bool
  | some c => !isPySpace c
  | none => true

/-- Characters that survive a render → parse round trip unescorted. -/
def goodChar (c : Char) : Bool := !(c = '|' || c = '\n' || c = '\r')

/-- Clean cell: see `okEnd` / `goodChar`. -/
def goodCell (l : List Char) : Bool :=
  l.all goodChar && okEnd l.head? && okEnd l.getLast?

/-- Clean cell, for `String` cells. -/
def goodCellS (s : String) : Bool := goodCell s.data

/-- A row whose rendered line is not mistaken for a separator line: some
cell contains a character outside the class `[\s\-\|:]`. -/
def notSepRow (r : List (List Char)) : Bool :=
  r.any (fun c => c.any (fun ch => !inSepClass ch))

/-- `notSepRow`, for `String` cells. -/
def notSepRowS (r : List String) : Bool := notSepRow (r.map String.data)

/-! ### Stripping lemmas -/

theorem dropWhile_spaces_append {sp : List Char} (hsp : sp.all isPySpace = true)
    (l : List Char) : (sp ++ l).dropWhile isPySpace = l.dropWhile isPySpace := by
  induction sp with
  | nil => rfl
  | cons c cs ih =>
    simp only [List.all_cons, Bool.and_eq_true] at hsp
    simp [List.dropWhile_cons, hsp.1, ih hsp.2]

theorem dropWhile_cons_not_space {c : Char} (hc : isPySpace c = false)
    (l : List Char) : (c :: l).dropWhile isPySpace = c :: l := by
  simp [List.dropWhile_cons, hc]

theorem dropWhile_spaces_all {l : List Char} (h : l.all isPySpace = true) :
    l.dropWhile isPySpace = [] := by
  induction l with
  | nil => rfl
  | cons c cs ih =>
    simp only [List.all_cons, Bool.and_eq_true] at h
    simp [List.dropWhile_cons, h.1, ih h.2]

theorem pyStrip_all_spaces {l : List Char} (h : l.all isPySpace = true) :
    pyStrip l = [] := by
  unfold pyStrip
  rw [dropWhile_spaces_all h]
  rfl

theorem pyStrip_pad {sp tsp c : List Char} (hsp : sp.all isPySpace = true)
    (htsp : tsp.all isPySpace = true) (h1 : okEnd c.head? = true)
    (h2 : okEnd c.getLast? = true) : pyStrip (sp ++ c ++ tsp) = c := by
  cases c with
  | nil =>
    apply pyStrip_all_spaces
    simp [List.all_append, hsp, htsp]
  | cons x c' =>
    have hx : isPySpace x = false := by
      simp only [okEnd, List.head?_cons, Bool.not_eq_true'] at h1
      exact h1
    unfold pyStrip
    rw [List.append_assoc, dropWhile_spaces_append hsp,
      show (x :: c') ++ tsp = x :: (c' ++ tsp) from rfl,
      dropWhile_cons_not_space hx,
      show x :: (c' ++ tsp) = (x :: c') ++ tsp from rfl,
      List.reverse_append, dropWhile_spaces_append (by simp [List.all_reverse, htsp])]
    obtain ⟨y, hy⟩ : ∃ y, (x :: c').getLast? = some y := by
      cases hgl : (x :: c').getLast? with
      | none =>
        have := congrArg Option.isSome hgl
        simp [List.getLast?_isSome] at this
      | some y => exact ⟨y, rfl⟩
    have hyns : isPySpace y = false := by
      rw [hy] at h2; simp only [okEnd, Bool.not_eq_true'] at h2; exact h2
    have hrev : (x :: c').reverse.head? = some y := by
      rw [List.head?_reverse]; exact hy
    cases hrc : (x :: c').reverse with
    | nil => simp at hrc
    | cons z zs =>
      rw [hrc] at hrev
      simp only [List.head?_cons, Option.some.injEq] at hrev
      subst hrev
      rw [dropWhile_cons_not_space hyns, ← hrc, List.reverse_reverse]

theorem pyStrip_eq_self {c : List Char} (h1 : okEnd c.head? = true)
    (h2 : okEnd c.getLast? = true) : pyStrip c = c := by
  have := @pyStrip_pad [] [] c rfl rfl h1 h2
  simpa using this

theorem goodCell_okEnds {c : List Char} (h : goodCell c = true) :
    okEnd c.head? = true ∧ okEnd c.getLast? = true := by
  simp only [goodCell, Bool.and_eq_true] at h
  exact ⟨h.1.2, h.2⟩

theorem goodCell_no_pipe {c : List Char} (h : goodCell c = true) :
    ∀ x ∈ c, x ≠ '|' := by
  simp only [goodCell, Bool.and_eq_true, List.all_eq_true] at h
  intro x hx
  have := h.1.1 x hx
  simp only [goodChar, Bool.or_eq_true, Bool.not_eq_true'] at this
  intro hcontra
  subst hcontra
  simp at this

theorem goodCell_no_nl {c : List Char} (h : goodCell c = true) : '\n' ∉ c := by
  simp only [goodCell, Bool.and_eq_true, List.all_eq_true] at h
  intro hmem
  have := h.1.1 '\n' hmem
  simp [goodChar] at this

theorem pyStrip_of_goodCell {c : List Char} (h : goodCell c = true) :
    pyStrip c = c :=
  pyStrip_eq_self (goodCell_okEnds h).1 (goodCell_okEnds h).2

/-! ### Cell-splitting lemmas -/

theorem splitCells_chunk : ∀ (a b cur : List Char), (∀ c ∈ a, c ≠ '|') →
    (b.head? = some '|' → a.getLast? ≠ some '\\') →
    splitCells (a ++ b) cur = splitCells b (cur ++ a)
  | [], b, cur, _, _ => by simp
  | [x], b, cur, ha, hb => by
    have hx : x ≠ '|' := ha x (by simp)
    cases b with
    | nil => simp [splitCells, hx]
    | cons y ys =>
      have hy : ¬(x = '\\' ∧ y = '|') := by
        rintro ⟨h1, h2⟩
        exact hb (by simp [h2]) (by simp [h1])
      simp [splitCells, hy, hx]
  | x :: z :: a'', b, cur, ha, hb => by
    have hx : x ≠ '|' := ha x (by simp)
    have hz : z ≠ '|' := ha z (by simp)
    have hxz : ¬(x = '\\' ∧ z = '|') := fun h => hz h.2
    have step : splitCells ((x :: z :: a'') ++ b) cur
        = splitCells ((z :: a'') ++ b) (cur ++ [x]) := by
      simp only [List.cons_append]
      simp [splitCells, hxz, hx]
    rw [step, splitCells_chunk (z :: a'') b (cur ++ [x])
      (fun c hc => ha c (List.mem_cons_of_mem _ hc))
      (fun hh => by
        have := hb hh
        simpa [List.getLast?_cons_cons] using this)]
    simp [List.append_assoc]

theorem splitCells_pipe (b cur : List Char) :
    splitCells ('|' :: b) cur = pyStrip cur :: splitCells b [] := by
  cases b with
  | nil => simp [splitCells]
  | cons y ys => simp [splitCells]

/-! ### Joining and re-splitting rendered rows -/

theorem mem_joinCells {x : Char} {cell : List Char} :
    ∀ {cells : List (List Char)}, x ∈ cell → cell ∈ cells → x ∈ joinCells cells
  | [], _, hcells => by simp at hcells
  | [c], hx, hcells => by
    simp only [List.mem_singleton] at hcells
    subst hcells
    simpa [joinCells] using hx
  | c :: c2 :: cs, hx, hcells => by
    rcases List.mem_cons.mp hcells with h | h
    · subst h
      simp only [joinCells, List.mem_append]
      exact Or.inl hx
    · simp only [joinCells, List.mem_append, List.mem_cons]
      exact Or.inr (Or.inr (Or.inr (Or.inr (mem_joinCells hx h))))

theorem mem_joinCells_cases {x : Char} :
    ∀ {cells : List (List Char)}, x ∈ joinCells cells →
      (∃ cell ∈ cells, x ∈ cell) ∨ x = ' ' ∨ x = '|'
  | [], hx => by simp [joinCells] at hx
  | [c], hx => by
    simp only [joinCells] at hx
    exact Or.inl ⟨c, by simp, hx⟩
  | c :: c2 :: cs, hx => by
    simp only [joinCells, List.mem_append, List.mem_cons] at hx
    rcases hx with h | h | h | h | h
    · exact Or.inl ⟨c, by simp, h⟩
    · exact Or.inr (Or.inl h)
    · exact Or.inr (Or.inr h)
    · exact Or.inr (Or.inl h)
    · rcases mem_joinCells_cases h with ⟨cell, hc, hxc⟩ | h'
      · exact Or.inl ⟨cell, List.mem_cons_of_mem _ hc, hxc⟩
      · exact Or.inr h'

theorem joinCells_all {p : Char → Bool} (hsp : p ' ' = true) (hpi : p '|' = true) :
    ∀ {cells : List (List Char)}, (∀ c ∈ cells, c.all p = true) →
      (joinCells cells).all p = true := by
  intro cells h
  rw [List.all_eq_true]
  intro x hx
  rcases mem_joinCells_cases hx with ⟨cell, hc, hxc⟩ | h' | h'
  · exact List.all_eq_true.mp (h cell hc) x hxc
  · rwa [h']
  · rwa [h']

/-- The central inversion: splitting the rendered interior of a row of
clean cells recovers exactly those cells, for any all-whitespace buffer
already accumulated. -/
theorem splitCells_joinCells :
    ∀ (cells : List (List Char)), cells ≠ [] →
      (∀ c ∈ cells, goodCell c = true) →
      ∀ (sp : List Char), sp.all isPySpace = true →
      splitCells (joinCells cells ++ [' ']) sp = cells
  | [], h, _, _, _ => absurd rfl h
  | [c], _, hg, sp, hsp => by
    have hgc := hg c (by simp)
    rw [show joinCells [c] = c from rfl,
      splitCells_chunk c [' '] sp (goodCell_no_pipe hgc) (by intro h; simp at h)]
    have : splitCells [' '] (sp ++ c) = [pyStrip ((sp ++ c) ++ [' '])] := by
      simp [splitCells]
    rw [this]
    exact congrArg (fun z => [z]) (pyStrip_pad hsp (by decide)
      (goodCell_okEnds hgc).1 (goodCell_okEnds hgc).2)
  | c :: c2 :: cs, _, hg, sp, hsp => by
    have hgc := hg c (by simp)
    have step1 : joinCells (c :: c2 :: cs) ++ [' ']
        = c ++ (' ' :: '|' :: ' ' :: (joinCells (c2 :: cs) ++ [' '])) := by
      simp [joinCells, List.append_assoc]
    rw [step1, splitCells_chunk c _ sp (goodCell_no_pipe hgc) (by intro h; simp at h)]
    have step2 : splitCells (' ' :: '|' :: ' ' :: (joinCells (c2 :: cs) ++ [' '])) (sp ++ c)
        = splitCells ('|' :: (' ' :: (joinCells (c2 :: cs) ++ [' ']))) ((sp ++ c) ++ [' ']) := by
      simp [splitCells]
    rw [step2, splitCells_pipe]
    rw [pyStrip_pad hsp (by decide) (goodCell_okEnds hgc).1 (goodCell_okEnds hgc).2]
    have step3 : splitCells (' ' :: (joinCells (c2 :: cs) ++ [' '])) []
        = splitCells (joinCells (c2 :: cs) ++ [' ']) [' '] := by
      rw [show (' ' :: (joinCells (c2 :: cs) ++ [' ']))
          = [' '] ++ (joinCells (c2 :: cs) ++ [' ']) from rfl]
      exact splitCells_chunk [' '] _ [] (by decide) (by intro h; simp)
    rw [step3, splitCells_joinCells (c2 :: cs) (by simp)
      (fun x hx => hg x (List.mem_cons_of_mem _ hx)) [' '] (by decide)]

/-! ### Escaping lemmas -/

theorem escapeCellC_no_pipe : ∀ {c : List Char}, (∀ x ∈ c, x ≠ '|') →
    escapeCellC c = c
  | [], _ => rfl
  | x :: r, h => by
    have hx : x ≠ '|' := h x (by simp)
    simp only [escapeCellC, if_neg hx]
    rw [escapeCellC_no_pipe (fun y hy => h y (List.mem_cons_of_mem _ hy))]

/-! ### Rendered-line classification -/

theorem renderRowC_split (cells : List (List Char)) :
    renderRowC cells = ('|' :: ' ' :: (joinCells cells ++ [' '])) ++ ['|'] := by
  simp [renderRowC]

theorem renderRowC_getLast (cells : List (List Char)) :
    (renderRowC cells).getLast? = some '|' := by
  rw [renderRowC_split]
  exact List.getLast?_concat _

theorem renderRowC_head (cells : List (List Char)) :
    (renderRowC cells).head? = some '|' := rfl

theorem pyStrip_renderRow (cells : List (List Char)) :
    pyStrip (renderRowC cells) = renderRowC cells := by
  apply pyStrip_eq_self
  · rw [renderRowC_head]; decide
  · rw [renderRowC_getLast]; decide

theorem renderRowC_content (cells : List (List Char)) :
    ((renderRowC cells).drop 1).dropLast = ' ' :: (joinCells cells ++ [' ']) := by
  rw [renderRowC_split]
  have : (('|' :: ' ' :: (joinCells cells ++ [' '])) ++ ['|']).drop 1
      = (' ' :: (joinCells cells ++ [' '])) ++ ['|'] := rfl
  rw [this, List.dropLast_concat]

theorem notSepRow_bad_char {cells : List (List Char)} (hs : notSepRow cells = true) :
    ∃ cell ∈ cells, ∃ ch ∈ cell, inSepClass ch = false := by
  simp only [notSepRow, List.any_eq_true, Bool.not_eq_true'] at hs
  exact hs

theorem isSepLineC_renderRow_false {cells : List (List Char)}
    (hs : notSepRow cells = true) : isSepLineC (renderRowC cells) = false := by
  obtain ⟨cell, hcell, ch, hch, hbad⟩ := notSepRow_bad_char hs
  have hmem : ch ∈ ' ' :: (joinCells cells ++ [' ', '|']) :=
    List.mem_cons_of_mem _ (List.mem_append_left _ (mem_joinCells hch hcell))
  show isSepLineC ('|' :: (' ' :: (joinCells cells ++ [' ', '|']))) = false
  simp only [isSepLineC, Bool.and_eq_false_iff]
  right
  rw [← Bool.not_eq_true, List.all_eq_true]
  intro hall
  rw [hall ch hmem] at hbad
  exact absurd hbad (by decide)

theorem isSepLineC_sepRow_true (n : Nat) :
    isSepLineC (renderRowC (List.replicate n sepCellC)) = true := by
  have hjoin : (joinCells (List.replicate n sepCellC)).all inSepClass = true := by
    apply joinCells_all (by decide) (by decide)
    intro c hc
    rw [List.eq_of_mem_replicate hc]
    decide
  have hall : ∀ ch ∈ ' ' :: (joinCells (List.replicate n sepCellC) ++ [' ', '|']),
      inSepClass ch = true := by
    intro ch hch
    rcases List.mem_cons.mp hch with h | h
    · subst h; decide
    rcases List.mem_append.mp h with h | h
    · exact List.all_eq_true.mp hjoin ch h
    · rcases List.mem_cons.mp h with h' | h'
      · subst h'; decide
      · rw [List.mem_singleton.mp h']; decide
  show isSepLineC ('|' :: (' ' :: (joinCells (List.replicate n sepCellC) ++ [' ', '|']))) = true
  simp only [isSepLineC, List.isEmpty_cons, Bool.not_false, Bool.true_and]
  exact List.all_eq_true.mpr hall

/-! ### Line joining and splitting -/

theorem splitLinesC_no_nl {l : List Char} (h : '\n' ∉ l) : splitLinesC l = [l] := by
  induction l with
  | nil => rfl
  | cons c r ih =>
    have hc : ¬c = '\n' := fun hc => h (hc ▸ List.mem_cons_self c r)
    have hr : '\n' ∉ r := fun hm => h (List.mem_cons_of_mem _ hm)
    simp only [splitLinesC, if_neg hc, ih hr]

theorem splitLinesC_append {l : List Char} (h : '\n' ∉ l) (rest : List Char) :
    splitLinesC (l ++ '\n' :: rest) = l :: splitLinesC rest := by
  induction l with
  | nil => simp [splitLinesC]
  | cons c r ih =>
    have hc : ¬c = '\n' := fun hc => h (hc ▸ List.mem_cons_self c r)
    have hr : '\n' ∉ r := fun hm => h (List.mem_cons_of_mem _ hm)
    simp only [List.cons_append, splitLinesC, if_neg hc, List.append_eq, ih hr]

theorem splitLinesC_joinLines : ∀ (ls : List (List Char)), ls ≠ [] →
    (∀ l ∈ ls, '\n' ∉ l) → splitLinesC (joinLines ls) = ls
  | [], h, _ => absurd rfl h
  | [l], _, hnl => by
    rw [show joinLines [l] = l from rfl, splitLinesC_no_nl (hnl l (by simp))]
  | l :: l2 :: ls, _, hnl => by
    rw [show joinLines (l :: l2 :: ls) = l ++ '\n' :: joinLines (l2 :: ls) from rfl,
      splitLinesC_append (hnl l (by simp)),
      splitLinesC_joinLines (l2 :: ls) (by simp)
        (fun x hx => hnl x (List.mem_cons_of_mem _ hx))]

theorem nl_not_mem_renderRow {cells : List (List Char)}
    (h : ∀ c ∈ cells, '\n' ∉ c) : '\n' ∉ renderRowC cells := by
  intro hmem
  rw [show renderRowC cells = '|' :: (' ' :: (joinCells cells ++ [' ', '|'])) from rfl] at hmem
  rcases List.mem_cons.mp hmem with h1 | h1
  · exact absurd h1 (by decide)
  rcases List.mem_cons.mp h1 with h2 | h2
  · exact absurd h2 (by decide)
  rcases List.mem_append.mp h2 with h3 | h3
  · rcases mem_joinCells_cases h3 with ⟨cell, hc, hxc⟩ | h' | h'
    · exact h cell hc hxc
    · exact absurd h' (by decide)
    · exact absurd h' (by decide)
  · exact absurd h3 (by decide)

theorem joinLines_ne_nil {l : List Char} (hl : l ≠ []) (ls : List (List Char)) :
    joinLines (l :: ls) ≠ [] := by
  cases ls with
  | nil => exact hl
  | cons l2 ls' =>
    rw [show joinLines (l :: l2 :: ls') = l ++ '\n' :: joinLines (l2 :: ls') from rfl]
    intro hcontra
    exact hl (List.append_eq_nil.mp hcontra).1

/-! ### Normalisation lemmas -/

theorem map_eq_self_of {α : Type} {f : α → α} :
    ∀ (l : List α), (∀ a ∈ l, f a = a) → l.map f = l
  | [], _ => rfl
  | a :: l, h => by
    rw [List.map_cons, h a (by simp),
      map_eq_self_of l (fun x hx => h x (List.mem_cons_of_mem _ hx))]

theorem map_congr_mem {α β : Type} {f g : α → β} :
    ∀ (l : List α), (∀ a ∈ l, f a = g a) → l.map f = l.map g
  | [], _ => rfl
  | a :: l, h => by
    rw [List.map_cons, List.map_cons, h a (by simp),
      map_congr_mem l (fun x hx => h x (List.mem_cons_of_mem _ hx))]

theorem normalizeLen_length (n : Nat) (r : List (List Char)) :
    (normalizeLen n r).length = n := by
  unfold normalizeLen
  rw [List.length_take, List.length_append, List.length_replicate]
  omega

theorem normalizeLen_take_eq (n : Nat) (r : List (List Char)) :
    normalizeLen n r = r.take n ++ List.replicate (n - r.length) [] := by
  unfold normalizeLen
  rw [List.take_append_eq_append_take, List.take_replicate, Nat.min_self]

theorem normalizeLen_of_length {n : Nat} {r : List (List Char)} (h : r.length = n) :
    normalizeLen n r = r := by
  subst h
  unfold normalizeLen
  simp

/-! ### Parsing rendered lines -/

theorem renderRow_isEmpty (cells : List (List Char)) :
    (renderRowC cells).isEmpty = false := rfl

theorem parseRows_keep (cells : List (List Char)) (rest : List (List Char))
    (hg : ∀ c ∈ cells, goodCell c = true) (hs : notSepRow cells = true) :
    parseRowsC (renderRowC cells :: rest) = cells :: parseRowsC rest := by
  have hne : cells ≠ [] := by
    intro hc; subst hc; simp [notSepRow] at hs
  obtain ⟨cell, hcell, ch, hch, _⟩ := notSepRow_bad_char hs
  have hsplit : splitCells (((renderRowC cells).drop 1).dropLast) [] = cells := by
    rw [renderRowC_content,
      show ' ' :: (joinCells cells ++ [' ']) = [' '] ++ (joinCells cells ++ [' ']) from rfl,
      splitCells_chunk [' '] _ [] (by decide) (by intro hcontra; simp)]
    exact splitCells_joinCells cells hne hg [' '] (by decide)
  have hex : ∃ x ∈ cells, ¬x = [] :=
    ⟨cell, hcell, fun hnil => absurd hch (hnil ▸ List.not_mem_nil ch)⟩
  simp [parseRowsC, pyStrip_renderRow, isSepLineC_renderRow_false hs,
    renderRowC_head, renderRowC_getLast, renderRow_isEmpty]
  rw [← List.drop_one, hsplit, if_pos hex]

theorem parseRows_sep (n : Nat) (rest : List (List Char)) :
    parseRowsC (renderRowC (List.replicate n sepCellC) :: rest) = parseRowsC rest := by
  simp [parseRowsC, pyStrip_renderRow, isSepLineC_sepRow_true, renderRow_isEmpty]

theorem parseRows_dataLines : ∀ (ts : List (List (List Char))),
    (∀ r ∈ ts, ∀ c ∈ r, goodCell c = true) → (∀ r ∈ ts, notSepRow r = true) →
    parseRowsC (ts.map renderRowC) = ts
  | [], _, _ => rfl
  | r :: ts, hg, hs => by
    rw [List.map_cons, parseRows_keep r _ (hg r (by simp)) (hs r (by simp)),
      parseRows_dataLines ts (fun x hx => hg x (List.mem_cons_of_mem _ hx))
        (fun x hx => hs x (List.mem_cons_of_mem _ hx))]

/-- Round trip at the character level: parsing the lines of a rendered
table recovers exactly the rows that were rendered. -/
theorem parse_renderTable (h : List (List Char)) (t : List (List (List Char)))
    (hgh : ∀ c ∈ h, goodCell c = true)
    (hgt : ∀ r ∈ t, ∀ c ∈ r, goodCell c = true)
    (hsh : notSepRow h = true) (hst : ∀ r ∈ t, notSepRow r = true)
    (hlen : ∀ r ∈ t, r.length = h.length) :
    parseRowsC (splitLinesC (renderTableC h t)) = h :: t := by
  have hmapH : h.map pyStrip = h :=
    map_eq_self_of h (fun c hc => pyStrip_of_goodCell (hgh c hc))
  have hrows : t.map (fun r =>
      renderRowC ((normalizeLen h.length r).map (fun c => escapeCellC (pyStrip c))))
      = t.map renderRowC := by
    apply map_congr_mem
    intro r hr
    rw [normalizeLen_of_length (hlen r hr)]
    congr 1
    apply map_eq_self_of
    intro c hc
    rw [pyStrip_of_goodCell (hgt r hr c hc),
      escapeCellC_no_pipe (goodCell_no_pipe (hgt r hr c hc))]
  unfold renderTableC
  rw [hmapH, hrows]
  have hnl : ∀ l ∈ renderRowC h :: renderRowC (List.replicate h.length sepCellC)
      :: t.map renderRowC, '\n' ∉ l := by
    intro l hl
    rcases List.mem_cons.mp hl with h1 | h1
    · subst h1
      exact nl_not_mem_renderRow (fun c hc => goodCell_no_nl (hgh c hc))
    rcases List.mem_cons.mp h1 with h2 | h2
    · subst h2
      exact nl_not_mem_renderRow (by
        intro c hc
        rw [List.eq_of_mem_replicate hc]
        decide)
    · obtain ⟨r, hr, rfl⟩ := List.mem_map.mp h2
      exact nl_not_mem_renderRow (fun c hc => goodCell_no_nl (hgt r hr c hc))
  rw [splitLinesC_joinLines _ (by simp) hnl, parseRows_keep h _ hgh hsh,
    parseRows_sep, parseRows_dataLines t hgt hst]

/-! ### Wrapper-level lemmas -/

theorem renderRowC_ne_nil (cells : List (List Char)) : renderRowC cells ≠ [] := by
  simp [renderRowC]

theorem renderTableC_ne_nil (h : List (List Char)) (t : List (List (List Char))) :
    renderTableC h t ≠ [] := by
  unfold renderTableC
  exact joinLines_ne_nil (renderRowC_ne_nil _) _

theorem getLast_joinLines : ∀ (ls : List (List Char)), ls ≠ [] →
    (∀ l ∈ ls, l.getLast? = some '|') → (joinLines ls).getLast? = some '|'
  | [], h, _ => absurd rfl h
  | [l], _, hl => by
    rw [show joinLines [l] = l from rfl]
    exact hl l (by simp)
  | l :: l2 :: ls, _, hl => by
    rw [show joinLines (l :: l2 :: ls) = l ++ '\n' :: joinLines (l2 :: ls) from rfl]
    have ih := getLast_joinLines (l2 :: ls) (by simp)
      (fun x hx => hl x (List.mem_cons_of_mem _ hx))
    have hJ : joinLines (l2 :: ls) ≠ [] := by
      intro hc; rw [hc] at ih; simp at ih
    rw [List.getLast?_append_cons]
    cases hcase : joinLines (l2 :: ls) with
    | nil => exact absurd hcase hJ
    | cons a b =>
      rw [List.getLast?_cons_cons, ← hcase]
      exact ih

theorem renderTableC_getLast (h : List (List Char)) (t : List (List (List Char))) :
    (renderTableC h t).getLast? = some '|' := by
  unfold renderTableC
  apply getLast_joinLines _ (by simp)
  intro l hl
  rcases List.mem_cons.mp hl with h1 | h1
  · subst h1; exact renderRowC_getLast _
  rcases List.mem_cons.mp h1 with h2 | h2
  · subst h2; exact renderRowC_getLast _
  · obtain ⟨r, _, rfl⟩ := List.mem_map.mp h2
    exact renderRowC_getLast _

theorem replaceMdCsv_no_md : ∀ (p : List Char), hasMdSub p = false → replaceMdCsv p = p
  | [], _ => rfl
  | [_], _ => rfl
  | [_, _], _ => rfl
  | c1 :: c2 :: c3 :: rest, h => by
    have hcond : ¬(c1 = '.' ∧ c2 = 'm' ∧ c3 = 'd') := by
      intro hc
      simp [hasMdSub, if_pos hc] at h
    have htail : hasMdSub (c2 :: c3 :: rest) = false := by
      rw [show hasMdSub (c1 :: c2 :: c3 :: rest)
          = if c1 = '.' ∧ c2 = 'm' ∧ c3 = 'd' then true
            else hasMdSub (c2 :: c3 :: rest) from rfl, if_neg hcond] at h
      exact h
    simp only [replaceMdCsv, if_neg hcond]
    rw [replaceMdCsv_no_md (c2 :: c3 :: rest) htail]

theorem isPrefixOf_append_self : ∀ (a b : List Char), a.isPrefixOf (a ++ b) = true
  | [], _ => by simp [List.isPrefixOf]
  | x :: a, b => by
    simp only [List.cons_append, List.isPrefixOf_cons₂_self]
    exact isPrefixOf_append_self a b

theorem csv_suffix_append (p : List Char) :
    (".csv".data).isSuffixOf (p ++ ".csv".data) = true := by
  unfold List.isSuffixOf
  rw [List.reverse_append]
  exact isPrefixOf_append_self _ _

theorem parseRows_skip_all_empty (l : List Char) (ls : List (List Char))
    (hall : (splitCells (((pyStrip l).drop 1).dropLast) []).all
      (fun c => c.isEmpty) = true) :
    parseRowsC (l :: ls) = parseRowsC ls := by
  have hAll : ∀ x ∈ splitCells (((pyStrip l).drop 1).dropLast) [], x = [] := by
    intro x hx
    have := List.all_eq_true.mp hall x hx
    cases x with
    | nil => rfl
    | cons a b => simp [List.isEmpty_cons] at this
  cases h1 : (pyStrip l).isEmpty with
  | true => simp [parseRowsC, h1]
  | false =>
    cases h2 : isSepLineC (pyStrip l) with
    | true => simp [parseRowsC, h1, h2]
    | false =>
      by_cases h3 : (pyStrip l).head? = some '|' ∧ (pyStrip l).getLast? = some '|'
      · rw [List.drop_one] at hAll
        simp [parseRowsC, h1, h2, h3]
        simpa using hAll
      · simp [parseRowsC, h1, h2, h3]

/-! ### Escape-scan inversion -/

theorem escapeCellC_head_ne_pipe : ∀ {c : List Char}, c ≠ [] →
    (escapeCellC c).head? ≠ some '|'
  | [], h => absurd rfl h
  | x :: r, _ => by
    by_cases hx : x = '|'
    · subst hx
      simp only [escapeCellC, if_pos rfl]
      intro hcontra
      simp at hcontra
    · simp only [escapeCellC, if_neg hx]
      intro hcontra
      simp only [List.head?_cons, Option.some.injEq] at hcontra
      exact hx hcontra

/-- The parser's stateful scan undoes the renderer's pipe-escaping: walking
an escaped cell appends exactly the original cell to the buffer, splitting
at none of its (escaped) pipes. -/
theorem splitCells_escape_chunk : ∀ (cell b cur : List Char),
    (b.head? = some '|' → cell.getLast? ≠ some '\\') →
    splitCells (escapeCellC cell ++ b) cur = splitCells b (cur ++ cell)
  | [], b, cur, _ => by simp [escapeCellC]
  | x :: r, b, cur, hb => by
    by_cases hx : x = '|'
    · subst hx
      rw [show escapeCellC ('|' :: r) = '\\' :: '|' :: escapeCellC r by
        simp [escapeCellC]]
      have step : splitCells (('\\' :: '|' :: escapeCellC r) ++ b) cur
          = splitCells (escapeCellC r ++ b) (cur ++ ['|']) := by
        simp only [List.cons_append]
        simp [splitCells]
      rw [step, splitCells_escape_chunk r b (cur ++ ['|']) (fun hh => by
        cases r with
        | nil => simp
        | cons z r' =>
          have := hb hh
          rw [List.getLast?_cons_cons] at this
          exact this),
        List.append_assoc]
      rfl
    · rw [show escapeCellC (x :: r) = x :: escapeCellC r by
        simp [escapeCellC, if_neg hx]]
      cases hr : r with
      | nil =>
        cases b with
        | nil => simp [splitCells, escapeCellC, hx]
        | cons y ys =>
          have hxy : ¬(x = '\\' ∧ y = '|') := by
            rintro ⟨h1, h2⟩
            exact hb (by simp [h2]) (by simp [h1, hr])
          simp [splitCells, escapeCellC, hxy, hx]
      | cons z r' =>
        have hne : escapeCellC (z :: r') ≠ [] := by
          by_cases hz : z = '|' <;> simp [escapeCellC, hz]
        obtain ⟨w, ws, hw⟩ : ∃ w ws, escapeCellC (z :: r') = w :: ws := by
          cases hesc : escapeCellC (z :: r') with
          | nil => exact absurd hesc hne
          | cons w ws => exact ⟨w, ws, rfl⟩
        have hwne : w ≠ '|' := by
          have := @escapeCellC_head_ne_pipe (z :: r') (by simp)
          rw [hw] at this
          simp only [List.head?_cons, ne_eq, Option.some.injEq] at this
          exact this
        have hxw : ¬(x = '\\' ∧ w = '|') := fun hc => hwne hc.2
        have step : splitCells ((x :: escapeCellC (z :: r')) ++ b) cur
            = splitCells (escapeCellC (z :: r') ++ b) (cur ++ [x]) := by
          rw [hw]
          simp only [List.cons_append]
          simp [splitCells, hxw, hx]
        rw [step, splitCells_escape_chunk (z :: r') b (cur ++ [x]) (fun hh => by
          have := hb hh
          rw [hr, List.getLast?_cons_cons] at this
          exact this),
          List.append_assoc]
        rfl

/-! ### Membership lemmas for line structure -/

theorem mem_pyStrip {x : Char} {l : List Char} (h : x ∈ pyStrip l) : x ∈ l := by
  unfold pyStrip at h
  rw [List.mem_reverse] at h
  have h2 := (List.dropWhile_sublist _).mem h
  rw [List.mem_reverse] at h2
  exact (List.dropWhile_sublist _).mem h2

theorem nl_not_mem_escape : ∀ {c : List Char}, '\n' ∉ c → '\n' ∉ escapeCellC c
  | [], _ => by simp [escapeCellC]
  | x :: r, h => by
    have hr : '\n' ∉ r := fun hm => h (List.mem_cons_of_mem _ hm)
    by_cases hx : x = '|'
    · subst hx
      simp only [escapeCellC, if_pos rfl]
      intro hmem
      rcases List.mem_cons.mp hmem with h1 | h1
      · exact absurd h1 (by decide)
      rcases List.mem_cons.mp h1 with h2 | h2
      · exact absurd h2 (by decide)
      · exact nl_not_mem_escape hr h2
    · simp only [escapeCellC, if_neg hx]
      intro hmem
      rcases List.mem_cons.mp hmem with h1 | h1
      · exact h (h1 ▸ List.mem_cons_self x r)
      · exact nl_not_mem_escape hr h1

theorem mem_normalizeLen {r' : List Char} {n : Nat} {r : List (List Char)}
    (h : r' ∈ normalizeLen n r) : r' ∈ r ∨ r' = [] := by
  unfold normalizeLen at h
  have h2 := List.mem_of_mem_take h
  rcases List.mem_append.mp h2 with h3 | h3
  · exact Or.inl h3
  · exact Or.inr (List.eq_of_mem_replicate h3)

theorem map_mk_data (r : List String) : (r.map String.data).map String.mk = r := by
  rw [List.map_map]
  exact map_eq_self_of r (fun s _ => rfl)

/-! ## Claim theorems -/

/-- C1, counterexample: the claim says every cell of every row — including
the header row — has its pipes escaped, but `generate_markdown_table`
escapes only data-row cells: the header cell `a|b` is rendered verbatim as
`| a|b |`, not as `| a\|b |`, and re-parsing the rendered table splits the
unescaped header pipe into two cells. -/
theorem C1_counterexample :
    generate_markdown_table [["a|b"]] = .ok "| a|b |\n| --- |"
      ∧ "| a|b |\n| --- |" ≠ "| a\\|b |\n| --- |"
      ∧ parse_markdown_table "| a|b |\n| --- |" = .ok [["a", "b"]] :=
  ⟨by rfl, by decide, by rfl⟩

/-- C1, amended: every data-row cell (not the header row, whose cells are
trimmed but never escaped) has each literal `|` replaced by `\|` after
trimming, and the parser's scan decodes `\|` back to a literal `|`:
walking an escaped cell extends the current cell buffer with exactly the
original cell text, and concretely a data cell `a|b` renders as `a\|b`
and parses back to `a|b`. -/
theorem C1_escape_roundtrip :
    (∀ (cell b cur : List Char), (b.head? = some '|' → cell.getLast? ≠ some '\\') →
      splitCells (escapeCellC cell ++ b) cur = splitCells b (cur ++ cell))
    ∧ generate_markdown_table [["h"], ["a|b"]] = .ok "| h |\n| --- |\n| a\\|b |"
    ∧ parse_markdown_table "| h |\n| --- |\n| a\\|b |" = .ok [["h"], ["a|b"]] :=
  ⟨splitCells_escape_chunk, by rfl, by rfl⟩

/-- C1, witness for the amended theorem at the concrete cell `a|b`. -/
theorem C1_witness :
    splitCells (escapeCellC "a|b".data ++ [' ']) [] = splitCells [' '] ([] ++ "a|b".data) :=
  C1_escape_roundtrip.1 "a|b".data [' '] [] (by decide)

/-- C2, counterexample: the table `[["a"], ["-"]]` contains no pipe
character in any cell, yet CSV→Markdown→CSV loses the `["-"]` row: its
rendered line `| - |` matches the separator-line pattern and is dropped
by the parser. -/
theorem C2_counterexample :
    generate_markdown_table [["a"], ["-"]] = .ok "| a |\n| --- |\n| - |"
    ∧ parse_markdown_table "| a |\n| --- |\n| - |" = .ok [["a"]]
    ∧ ([["a"]] : List (List String)) ≠ [["a"], ["-"]] :=
  ⟨by rfl, by rfl, by decide⟩

/-- C2, amended: for tables whose cells are trimmed and free of pipes,
newlines and carriage returns, whose rows all have the header's length,
and in which every row (header included) has at least one character
outside the separator class `[\s\-\|:]`, rendering and re-parsing
reproduce the table exactly — hence both `CSV→Markdown→CSV` and
`Markdown→CSV→Markdown` round trips reproduce the cell values. -/
theorem C2_roundtrip (h : List String) (t : List (List String)) (txt : String)
    (hgh : ∀ c ∈ h, goodCellS c = true)
    (hgt : ∀ r ∈ t, ∀ c ∈ r, goodCellS c = true)
    (hsh : notSepRowS h = true) (hst : ∀ r ∈ t, notSepRowS r = true)
    (hlen : ∀ r ∈ t, r.length = h.length)
    (hgen : generate_markdown_table (h :: t) = .ok txt) :
    parse_markdown_table txt = .ok (h :: t) := by
  have htxt : String.mk (renderTableC (h.map String.data)
      (t.map (fun r => r.map String.data))) = txt := by
    have h2 : (Except.ok (String.mk (renderTableC (h.map String.data)
        (t.map (fun r => r.map String.data)))) : Except String String) = Except.ok txt := by
      rw [← hgen]; rfl
    exact Except.ok.inj h2
  subst htxt
  have hne := renderTableC_ne_nil (h.map String.data) (t.map (fun r => r.map String.data))
  have hisEmpty : (renderTableC (h.map String.data)
      (t.map (fun r => r.map String.data))).isEmpty = false := by
    cases hcase : renderTableC (h.map String.data) (t.map (fun r => r.map String.data)) with
    | nil => exact absurd hcase hne
    | cons a b => rfl
  have hcore : parseRowsC (splitLinesC (renderTableC (h.map String.data)
      (t.map (fun r => r.map String.data))))
      = (h.map String.data) :: (t.map (fun r => r.map String.data)) := by
    apply parse_renderTable
    · intro c hc
      obtain ⟨s, hs, rfl⟩ := List.mem_map.mp hc
      exact hgh s hs
    · intro r hr c hc
      obtain ⟨r0, hr0, rfl⟩ := List.mem_map.mp hr
      obtain ⟨s, hs, rfl⟩ := List.mem_map.mp hc
      exact hgt r0 hr0 s hs
    · exact hsh
    · intro r hr
      obtain ⟨r0, hr0, rfl⟩ := List.mem_map.mp hr
      exact hst r0 hr0
    · intro r hr
      obtain ⟨r0, hr0, rfl⟩ := List.mem_map.mp hr
      simp [List.length_map, hlen r0 hr0]
  have hrows : (((h.map String.data) :: (t.map (fun r => r.map String.data))).map
      (fun r => r.map String.mk)) = h :: t := by
    rw [List.map_cons, map_mk_data h, List.map_map]
    congr 1
    exact map_eq_self_of t (fun r _ => map_mk_data r)
  simp only [parse_markdown_table, String.data]
  rw [hisEmpty, hcore]
  simp only [Bool.false_eq_true, if_false]
  rw [hrows]

/-- C2, witness: the round trip at the concrete pipe-free table
`[["a","b"],["x","y"]]`. -/
theorem C2_witness :
    parse_markdown_table "| a | b |\n| --- | --- |\n| x | y |"
      = .ok [["a", "b"], ["x", "y"]] :=
  C2_roundtrip ["a", "b"] [["x", "y"]] "| a | b |\n| --- | --- |\n| x | y |"
    (by decide) (by decide) (by decide) (by decide) (by decide) (by rfl)

/-- C3: the CSV pipeline normalises every data row to exactly the
header's column count — short rows are right-padded with empty cells and
long rows are truncated from the right — and the CSV row `["x"]` under
header `["a","b","c"]` renders as `| x |  |  |`. -/
theorem C3_normalization :
    (∀ (n : Nat) (r : List (List Char)), (normalizeLen n r).length = n
      ∧ normalizeLen n r = r.take n ++ List.replicate (n - r.length) [])
    ∧ generate_markdown_table [["a", "b", "c"], ["x"]]
        = .ok "| a | b | c |\n| --- | --- | --- |\n| x |  |  |" :=
  ⟨fun n r => ⟨normalizeLen_length n r, normalizeLen_take_eq n r⟩, by rfl⟩

/-- C4, counterexample: the claim asserts the invariant for both
pipelines, but the Markdown parser performs no normalisation: parsing a
table whose data line has three cells under a two-column header yields a
row of three cells, not `len(Header)` cells. -/
theorem C4_counterexample :
    parse_markdown_table "| a | b |\n| --- | --- |\n| x | y | z |"
      = .ok [["a", "b"], ["x", "y", "z"]]
    ∧ ¬ (∀ r ∈ ([["a", "b"], ["x", "y", "z"]] : List (List String)),
        r.length = (["a", "b"] : List String).length) :=
  ⟨by rfl, by decide⟩

/-- C4, amended: only the CSV pipeline normalises — every normalised row
has exactly the header's length (and, concretely, a long CSV row is
truncated in the rendered output) — while the Markdown parser emits each
parsed row with exactly the cell count found on its line. -/
theorem C4_normalization_asymmetry :
    (∀ (n : Nat) (r : List (List Char)), (normalizeLen n r).length = n)
    ∧ generate_markdown_table [["a", "b"], ["x", "y", "z", "w"]]
        = .ok "| a | b |\n| --- | --- |\n| x | y |"
    ∧ parseRowsC ["| a | b |".data, "| x | y | z |".data]
        = [["a".data, "b".data], ["x".data, "y".data, "z".data]] :=
  ⟨normalizeLen_length, by rfl, by rfl⟩

/-- C5: converting an empty CSV input (zero rows) fails with the message
"CSV file is empty", exits with status 1, and writes no output file,
whatever destination was requested. -/
theorem C5_empty_csv (out : Option String) :
    csv_to_markdown [] out = ⟨1, none, some "Error: CSV file is empty"⟩ := by
  cases out <;> rfl

/-- C6: any line whose split cells are all empty after trimming is
discarded by the parser (it contributes no row whatever the surrounding
lines), and a document whose only candidate line is `|  |  |` fails with
"No valid table data found". -/
theorem C6_blank_rows :
    (∀ (l : List Char) (ls : List (List Char)),
      (splitCells (((pyStrip l).drop 1).dropLast) []).all (fun c => c.isEmpty) = true →
      parseRowsC (l :: ls) = parseRowsC ls)
    ∧ parse_markdown_table "|  |  |" = .error "Error: No valid table data found" :=
  ⟨parseRows_skip_all_empty, by rfl⟩

/-- C6, witness: the all-empty line `|  |  |` is skipped in front of a
retained line. -/
theorem C6_witness :
    parseRowsC ["|  |  |".data, "| a |".data] = parseRowsC ["| a |".data] :=
  C6_blank_rows.1 "|  |  |".data ["| a |".data] (by decide)

/-- C7, counterexample: the claim says everything outside the replaced
`## Preview` region is untouched, but the final `\n{3,}` collapse runs
over the whole document: the blank-line run inside the `## Other` section
is rewritten, so the original `## Other` section is no longer a suffix of
the result. -/
theorem C7_counterexample :
    update_readme_preview "## Preview\nold\n## Other\n\n\n\nX".data "T".data
      = "## Preview\n\nT\n\n## Other\n\nX".data
    ∧ ¬ (("## Other\n\n\n\nX".data).isSuffixOf
        (update_readme_preview "## Preview\nold\n## Other\n\n\n\nX".data "T".data) = true) :=
  ⟨by decide, by decide⟩

/-- C7, amended: the updater replaces the region after every occurrence
of the heading (not only the first) up to the next `\n## ` boundary or
end-of-document with a blank line, the table and a newline, appends a
fresh section when the heading is absent, and then collapses every run of
three or more newlines anywhere in the document to two; on the spec's
example document the result is exactly the expected splice. -/
theorem C7_splice :
    update_readme_preview "## Preview\n\nold text\n\n## Other\nrest".data "T".data
      = "## Preview\n\nT\n\n## Other\nrest".data
    ∧ update_readme_preview "## Preview\nA\n## Preview\nB\n".data "T".data
      = "## Preview\n\nT\n\n## Preview\n\nT\n".data
    ∧ update_readme_preview "no heading here\n".data "T".data
      = "no heading here\n\n## Preview\n\nT\n".data :=
  ⟨by decide, by decide, by decide⟩

/-- C8: for every non-empty table the renderer's output splits (at
newlines) into exactly the header line, one separator line with `---` per
header column, and one line per data row — so the lines are joined by
single newlines — and the output's last character is `|`, never a
trailing newline. -/
theorem C8_structure (h : List (List Char)) (t : List (List (List Char)))
    (hh : ∀ c ∈ h, '\n' ∉ c) (ht : ∀ r ∈ t, ∀ c ∈ r, '\n' ∉ c) :
    splitLinesC (renderTableC h t)
      = renderRowC (h.map pyStrip)
        :: renderRowC (List.replicate h.length sepCellC)
        :: t.map (fun r => renderRowC ((normalizeLen h.length r).map
            (fun c => escapeCellC (pyStrip c))))
    ∧ (renderTableC h t).getLast? = some '|' := by
  constructor
  · unfold renderTableC
    apply splitLinesC_joinLines _ (by simp)
    intro l hl
    rcases List.mem_cons.mp hl with h1 | h1
    · subst h1
      apply nl_not_mem_renderRow
      intro c hc
      obtain ⟨c0, hc0, rfl⟩ := List.mem_map.mp hc
      exact fun hm => hh c0 hc0 (mem_pyStrip hm)
    rcases List.mem_cons.mp h1 with h2 | h2
    · subst h2
      apply nl_not_mem_renderRow
      intro c hc
      rw [List.eq_of_mem_replicate hc]
      decide
    · obtain ⟨r, hr, rfl⟩ := List.mem_map.mp h2
      apply nl_not_mem_renderRow
      intro c hc
      obtain ⟨c0, hc0, rfl⟩ := List.mem_map.mp hc
      rcases mem_normalizeLen hc0 with h3 | h3
      · exact nl_not_mem_escape (fun hm => ht r hr c0 h3 (mem_pyStrip hm))
      · subst h3
        decide
  · exact renderTableC_getLast h t

/-- C8, witness at the one-column table `[["a"]]` with data row `[["x"]]`. -/
theorem C8_witness :
    splitLinesC (renderTableC ["a".data] [["x".data]])
      = renderRowC (["a".data].map pyStrip)
        :: renderRowC (List.replicate (["a".data] : List (List Char)).length sepCellC)
        :: [["x".data]].map (fun r => renderRowC
            ((normalizeLen (["a".data] : List (List Char)).length r).map
              (fun c => escapeCellC (pyStrip c))))
    ∧ (renderTableC ["a".data] [["x".data]]).getLast? = some '|' :=
  C8_structure ["a".data] [["x".data]] (by decide) (by decide)

/-- C9, counterexample: the claim says the output path replaces the `.md`
extension or else appends `.csv`; but the code replaces every occurrence
of the substring `.md` (so `my.mdfile.md` becomes `my.csvfile.csv`, not
`my.mdfile.csv`), and an input already ending in `.csv` is returned
unchanged instead of getting `.csv` appended. -/
theorem C9_counterexample :
    derive_output_path "my.mdfile.md".data = "my.csvfile.csv".data
    ∧ derive_output_path "x.csv".data = "x.csv".data
    ∧ "my.csvfile.csv" ≠ "my.mdfile.csv"
    ∧ "x.csv" ≠ "x.csv.csv" :=
  ⟨by decide, by decide, by decide, by decide⟩

/-- C9, amended: the derived path always ends in `.csv`; it is the input
with every occurrence of the substring `.md` replaced by `.csv` when that
result ends in `.csv`, and otherwise the input with `.csv` appended — in
particular, when the input contains no `.md` at all, the output is the
input itself if it already ends in `.csv` and the input plus `.csv`
otherwise. -/
theorem C9_derivation (p : List Char) :
    (".csv".data).isSuffixOf (derive_output_path p) = true
    ∧ (hasMdSub p = false →
        derive_output_path p
          = if (".csv".data).isSuffixOf p then p else p ++ ".csv".data) := by
  constructor
  · simp only [derive_output_path]
    split
    · rename_i hcond; exact hcond
    · exact csv_suffix_append p
  · intro hmd
    simp only [derive_output_path, replaceMdCsv_no_md p hmd]

/-- C9, witness at the concrete path `file.txt`. -/
theorem C9_witness :
    (".csv".data).isSuffixOf (derive_output_path "file.txt".data) = true
    ∧ derive_output_path "file.txt".data
        = if (".csv".data).isSuffixOf "file.txt".data then "file.txt".data
          else "file.txt".data ++ ".csv".data :=
  ⟨(C9_derivation "file.txt".data).1, (C9_derivation "file.txt".data).2 (by decide)⟩

/-- C10: the line `| - |` starts and ends with `|` and its single cell
`-` is non-empty after trimming, yet the parser classifies it as a
separator line and silently drops it — parsing a document with that line
yields no corresponding data row. -/
theorem C10_dash_separator :
    isSepLineC "| - |".data = true
    ∧ splitCells (("| - |".data.drop 1).dropLast) [] = [['-']]
    ∧ parseRowsC ["| a |".data, "| - |".data] = [["a".data]]
    ∧ parse_markdown_table "| a |\n| - |" = .ok [["a"]] :=
  ⟨by decide, by decide, by rfl, by rfl⟩

end HokData
